import Mathlib

/-!
Shallow embedding of `py_common.py`, the common helper module of a
test-case management script collection.  The embedded pieces are the
test-case filename grammar (`get_testcase_filename_regex` together with
`break_up_filename`), the stricter primary-filename grammar
(`get_primary_testcase_filename_regex`), the C function-name grammar
(`get_functionname_c_regex` with `break_up_cpp_function_name`), the
corpus bucketer (`move_testcase_to_split_directories`), the elapsed-time
formatter (`convertSecondsToDHMS`) and the CSV finding-id rewriter
(`generate_unique_finding_ids`).

Python regular expressions are embedded as executable parsers over
`List Char`.  All matches in the source are performed with
`re.IGNORECASE`, which is modelled by comparing characters through
`Char.toLower` against lower-case literals; captures are returned as
slices of the original (case-preserving) input, exactly as
`match.group(...)` does.  Greedy `.*` groups with backtracking are
modelled by `pickLongest`, which tries every split of the remaining
input, longest prefix first, and keeps the first split whose
continuation succeeds — the same answer a backtracking engine produces
for these patterns.
-/

namespace PyCommon

/-- Greedy-star combinator.  `pickLongest f pre l` tries the continuation
`f` on every split `(pre ++ l.take i, l.drop i)` of the input, with the
longest prefix first, and returns the first success.  This is how a
backtracking regex engine resolves a greedy `(.*)` group followed by the
rest of the pattern. -/
def pickLongest {α : Type} (f : List Char → List Char → Option α) :
    List Char → List Char → Option α
  | pre, [] => f pre []
  | pre, c :: rest =>
    match pickLongest f (pre ++ [c]) rest with
    | some r => some r
    | none => f pre (c :: rest)

/-- The extension alternation `(?P<extension>c|cpp|java|h)$` of
`get_testcase_filename_regex`, compared case-insensitively. -/
def extOK (e : List Char) : Bool :=
  let t := e.map Char.toLower
  t == ['c'] || t == ['c', 'p', 'p'] || t == ['j', 'a', 'v', 'a'] || t == ['h']

/-- The subfile alternation
`[a-z]{1}|(bad)|(good(\d)+)|(base)|(goodB2G)|(goodG2B)` of
`get_testcase_filename_regex`, compared case-insensitively.  Whichever
alternative fires, the capture is the same piece of text, so the
alternation order does not affect the result. -/
def isSubfileAlt (s : List Char) : Bool :=
  let t := s.map Char.toLower
  (match t with
   | [c] => c.isAlpha
   | _ => false)
  || t == ['b', 'a', 'd']
  || (t.take 4 == ['g', 'o', 'o', 'd'] && !(t.drop 4).isEmpty && (t.drop 4).all Char.isDigit)
  || t == ['b', 'a', 's', 'e']
  || t == ['g', 'o', 'o', 'd', 'b', '2', 'g']
  || t == ['g', 'o', 'o', 'd', 'g', '2', 'b']

/-- Tail fragment `(?P<subfile_id>...)?\.(?P<extension>...)$` of the
testcase filename grammar.  Every subfile alternative and every
extension is dot-free, so the separating dot of a successful match is
necessarily the first dot of the remaining text. -/
def parseSubExt (t : List Char) : Option (Option (List Char) × List Char) :=
  let s := t.takeWhile (fun c => c != '.')
  match t.dropWhile (fun c => c != '.') with
  | '.' :: e =>
    if extOK e then
      if s.isEmpty then some (none, e)
      else if isSubfileAlt s then some (some s, e) else none
    else none
  | _ => none

/-- Tail fragment `(?P<flow_variant_id>\d+)_?(?P<subfile_id>...)?\....$`.
`\d+` is greedy; a shorter digit group would leave a digit in front of
`_?`, and no subfile alternative or dot starts with a digit, so the
maximal digit run is the only candidate.  Likewise `_?` must consume an
underscore when one is present, because no subfile alternative of this
grammar and no dot starts with an underscore. -/
def parseFlowTail (t : List Char) : Option (List Char × Option (List Char) × List Char) :=
  let flow := t.takeWhile Char.isDigit
  if flow.isEmpty then none
  else
    match t.dropWhile Char.isDigit with
    | c :: r =>
      if c = '_' then (parseSubExt r).map (fun p => (flow, p.1, p.2))
      else (parseSubExt (c :: r)).map (fun p => (flow, p.1, p.2))
    | [] => (parseSubExt []).map (fun p => (flow, p.1, p.2))

/-- Continuation for the greedy `(?P<functional_variant_name>.*)` group:
the candidate capture must contain no newline (`.` never matches a
newline), and must be followed by a literal `_` and the flow/subfile
tail. -/
def fxCheck (fx : List Char) (suf : List Char) :
    Option (List Char × List Char × Option (List Char) × List Char) :=
  if '\n' ∈ fx then none
  else
    match suf with
    | c :: r =>
      if c = '_' then (parseFlowTail r).map (fun p => (fx, p.1, p.2.1, p.2.2))
      else none
    | [] => none

/-- The part of the testcase filename grammar after `cwe\d+_(.*)__`. -/
def parseFxPart (r : List Char) :
    Option (List Char × List Char × Option (List Char) × List Char) :=
  pickLongest fxCheck [] r

/-- Continuation for the greedy `(?P<cwe_name>.*)` group: the candidate
must contain no newline and be followed by the literal `__` and the
functional-variant part. -/
def nameCheck (nm : List Char) (suf : List Char) :
    Option (List Char × List Char × List Char × Option (List Char) × List Char) :=
  if '\n' ∈ nm then none
  else
    match suf with
    | c₁ :: c₂ :: r =>
      if c₁ = '_' ∧ c₂ = '_' then
        (parseFxPart r).map (fun p => (nm, p.1, p.2.1, p.2.2.1, p.2.2.2))
      else none
    | _ => none

/-- The part of the testcase filename grammar after `cwe\d+_`. -/
def parseNamePart (r : List Char) :
    Option (List Char × List Char × List Char × Option (List Char) × List Char) :=
  pickLongest nameCheck [] r

/-- Named captures of `get_testcase_filename_regex`. -/
structure FileParts where
  cwe_number : List Char
  cwe_name : List Char
  functional_variant_name : List Char
  flow_variant_id : List Char
  subfile_id : Option (List Char)
  extension : List Char
deriving Repr, DecidableEq

/-- Embedding of `re.search(get_testcase_filename_regex(), l, re.IGNORECASE)`:
the pattern is anchored on both sides, so a search is a whole-string
match.  `\d+` after `cwe` is greedy and must be followed by a literal
`_`, so it is the maximal digit run. -/
def parseTestcaseFilenameL (l : List Char) : Option FileParts :=
  match l with
  | c₁ :: c₂ :: c₃ :: rest =>
    if c₁.toLower == 'c' && c₂.toLower == 'w' && c₃.toLower == 'e' then
      let num := rest.takeWhile Char.isDigit
      if num.isEmpty then none
      else
        match rest.dropWhile Char.isDigit with
        | '_' :: r =>
          (parseNamePart r).map
            (fun p => ⟨num, p.1, p.2.1, p.2.2.1, p.2.2.2.1, p.2.2.2.2⟩)
        | _ => none
    else none
  | _ => none

/-- The record built by `break_up_filename`.  In the Python source a
field is either a captured string, the empty string `''` (the
initialised defaults used on the no-match path), or `None` (an optional
group that did not participate in the match); the subfile field is the
only one that can be `None`, hence its `Option String` type, with
`some ""` playing the role of Python's `''`. -/
structure BreakUpParts where
  testcase_cwe_number : String
  testcase_cwe_name : String
  testcase_function_variant : String
  testcase_flow_variant : String
  testcase_subfile_id : Option String
  testcase_language : String
deriving Repr, DecidableEq

/-- The warning text printed by `break_up_filename` on a failed match
(the wall-clock timestamp prefix added by `print_with_timestamp` is not
modelled). -/
def breakUpWarning (file_name : String) : String :=
  "WARNING: file \"" ++ file_name ++ "\" is not going to be parsed into parts! (blank values will be used)"

/-- Embedding of `break_up_filename`: on a match the six captures are
returned, on no match every field keeps its initialised empty value and
a warning naming the file is emitted.  The second component collects the
printed diagnostics. -/
def break_up_filename (file_name : String) : BreakUpParts × List String :=
  match parseTestcaseFilenameL file_name.data with
  | none => (⟨"", "", "", "", some "", ""⟩, [breakUpWarning file_name])
  | some p =>
    (⟨String.mk p.cwe_number, String.mk p.cwe_name, String.mk p.functional_variant_name,
      String.mk p.flow_variant_id, p.subfile_id.map String.mk, String.mk p.extension⟩, [])

/-! ### The C function-name grammar -/

/-- Named captures of `get_functionname_c_regex`. -/
structure FnParts where
  cwe_number : List Char
  cwe_name : List Char
  function_variant : List Char
  flow_variant : List Char
  subfile_id : List Char
  function_name : List Char
deriving Repr, DecidableEq

/-- Continuation for the greedy `(?P<function_variant>.*)` group of
`get_functionname_c_regex`: a literal `_`, then `(?P<flow_variant>\d+)`
(greedy, maximal since no later piece can start with a digit), then
`(?P<subfile_id>[a-z]*)` (greedy, maximal since a shorter run would put
a letter in front of the required `_`), a literal `_`, and
`(?P<function_name>[^.]*)$`, which reaches the end iff the remainder is
dot-free. -/
def fnTailCheck (fx : List Char) (suf : List Char) :
    Option (List Char × List Char × List Char × List Char) :=
  if '\n' ∈ fx then none
  else
    match suf with
    | '_' :: r =>
      let flow := r.takeWhile Char.isDigit
      if flow.isEmpty then none
      else
        let r₂ := r.dropWhile Char.isDigit
        let letters := r₂.takeWhile Char.isAlpha
        match r₂.dropWhile Char.isAlpha with
        | '_' :: fn => if '.' ∈ fn then none else some (fx, flow, letters, fn)
        | _ => none
    | _ => none

/-- Continuation for the greedy `(?P<cwe_name>.*)` group of
`get_functionname_c_regex`. -/
def fnNameCheck (nm : List Char) (suf : List Char) :
    Option (List Char × List Char × List Char × List Char × List Char) :=
  if '\n' ∈ nm then none
  else
    match suf with
    | '_' :: '_' :: r =>
      (pickLongest fnTailCheck [] r).map (fun p => (nm, p.1, p.2.1, p.2.2.1, p.2.2.2))
    | _ => none

/-- Embedding of `re.search(get_functionname_c_regex(), l, re.IGNORECASE)`,
the pattern being `^(CWE|cwe)(?P<cwe_number>\d+)_(?P<cwe_name>.*)__` +
`(?P<function_variant>.*)_(?P<flow_variant>\d+)(?P<subfile_id>[a-z]*)_` +
`(?P<function_name>[^.]*)$`.  Under `re.IGNORECASE` the leading
`(CWE|cwe)` alternation accepts any capitalisation of `cwe`. -/
def parseFunctionNameL (l : List Char) : Option FnParts :=
  match l with
  | c₁ :: c₂ :: c₃ :: rest =>
    if c₁.toLower == 'c' && c₂.toLower == 'w' && c₃.toLower == 'e' then
      let num := rest.takeWhile Char.isDigit
      if num.isEmpty then none
      else
        match rest.dropWhile Char.isDigit with
        | '_' :: r =>
          (pickLongest fnNameCheck [] r).map
            (fun p => ⟨num, p.1, p.2.1, p.2.2.1, p.2.2.2.1, p.2.2.2.2⟩)
        | _ => none
    else none
  | _ => none

/-- Embedding of `break_up_cpp_function_name`: the `function_name`
capture on a match, the input unchanged otherwise.  The Python body has
no other outcome — no exception and no printed warning. -/
def break_up_cpp_function_name (function_name : String) : String :=
  match parseFunctionNameL function_name.data with
  | none => function_name
  | some p => String.mk p.function_name

/-! ### The primary-filename grammar

`get_primary_testcase_filename_regex` is only ever used as a yes/no
filter, so it is embedded as a match predicate: the existence of a
decomposition of the (lowercased) name along the pattern
`^(?!CWE580.*01_bad.java)cwe(?P<cwe_number>\d+)_(?P<cwe_name>.*)__` +
`(?P<functional_variant_name>.*)_(?!8[12]_bad)(?P<flow_variant_id>\d+)` +
`_?(?P<subfile_id>a|(_bad))?\.(?P<extension>c|cpp|java)$`.
A backtracking engine reports a match exactly when such a decomposition
exists, with each negative lookahead tested at the position where it
appears in the decomposition. -/

/-- The negative lookahead `(?!8[12]_bad)`, applied to the text that
starts at the `flow_variant_id` position. -/
def la8xB : List Char → Bool
  | '8' :: x :: '_' :: 'b' :: 'a' :: 'd' :: _ => x == '1' || x == '2'
  | _ => false

/-- Helper for `la580B`: does `01_bad` + any non-newline character +
`java` occur at some position of the list (all skipped characters being
non-newline, as `.*` never crosses a newline)? -/
def la580Core : List Char → Bool
  | '0' :: '1' :: '_' :: 'b' :: 'a' :: 'd' :: w :: 'j' :: 'a' :: 'v' :: 'a' :: _ =>
    w != '\n'
  | _ => false

/-- Search part of `la580B`. -/
def la580Scan : List Char → Bool
  | [] => false
  | c :: cs => la580Core (c :: cs) || (c != '\n' && la580Scan cs)

/-- The negative lookahead `(?!CWE580.*01_bad.java)` applied at the
start of the (lowercased) name; both dots of the lookahead pattern are
unescaped and match any non-newline character. -/
def la580B : List Char → Bool
  | 'c' :: 'w' :: 'e' :: '5' :: '8' :: '0' :: rest => la580Scan rest
  | _ => false

/-- Extensions accepted by the primary grammar (no `h`). -/
def extListPrimary : List (List Char) := [['c'], ['c', 'p', 'p'], ['j', 'a', 'v', 'a']]

/-- Existence of a match of `get_primary_testcase_filename_regex` on an
already lowercased character list: some split of the input along the
pattern satisfies every group constraint and both negative lookaheads. -/
def primaryMatchesLower (l : List Char) : Prop :=
  ∃ num nm fx flow u sub ext,
    l = 'c' :: 'w' :: 'e' ::
      (num ++ '_' :: (nm ++ '_' :: '_' :: (fx ++ '_' :: (flow ++ u ++ sub ++ '.' :: ext)))) ∧
    num ≠ [] ∧ (∀ c ∈ num, c.isDigit = true) ∧
    (∀ c ∈ nm, c ≠ '\n') ∧ (∀ c ∈ fx, c ≠ '\n') ∧
    flow ≠ [] ∧ (∀ c ∈ flow, c.isDigit = true) ∧
    (u = [] ∨ u = ['_']) ∧
    (sub = [] ∨ sub = ['a'] ∨ sub = ['_', 'b', 'a', 'd']) ∧
    ext ∈ extListPrimary ∧
    la8xB (flow ++ u ++ sub ++ '.' :: ext) = false ∧
    la580B l = false

/-- Case-insensitive match of the primary testcase filename grammar. -/
def primary_testcase_filename_matches (s : String) : Prop :=
  primaryMatchesLower (s.data.map Char.toLower)

/-! ### The corpus bucketer -/

/-- Matching engine for the per-variant filter pattern
`"__" + func_var + "_\d\d"`: does the (lowercased) pattern followed by
two digits occur at the head of the text? -/
def patMatchesAt : List Char → List Char → Bool
  | [], d₁ :: d₂ :: _ => d₁.isDigit && d₂.isDigit
  | [], _ => false
  | _ :: _, [] => false
  | p :: ps, c :: cs => p == c && patMatchesAt ps cs

/-- Unanchored search (like `re.search`): try `patMatchesAt` at every
position. -/
def patSearch (pat : List Char) : List Char → Bool
  | [] => patMatchesAt pat []
  | c :: cs => patMatchesAt pat (c :: cs) || patSearch pat cs

/-- Embedding of
`re.compile("__" + func_var + "_\d\d", re.IGNORECASE).search(f)` used by
`move_testcase_to_split_directories` to filter the files of one
functional variant.  Variant names in this corpus are plain identifier
text, so the interpolated name is taken literally. -/
def funcVarMatches (func_var : String) (f : String) : Bool :=
  patSearch ((('_' :: '_' :: func_var.data) ++ ['_']).map Char.toLower)
    (f.data.map Char.toLower)

/-- The subdirectory name built by `move_testcase_to_split_directories`:
`'s' + '0' + str(n)` while `n < 10`, and `'s' + str(n)` from 10 on. -/
def subdirName (subdir_count : Nat) : String :=
  if subdir_count < 10 then "s" ++ "0" ++ toString subdir_count
  else "s" ++ toString subdir_count

/-- Loop body of `move_testcase_to_split_directories`, carrying the
mutable state of the Python loop (current subdirectory index, running
file count, the new-subdirectory flag and the current subdirectory
name).  Each iteration reports the subdirectory chosen for the variant
together with the filtered file list moved there. -/
def moveGo (testcase_files : List String) (file_count_limit : Nat) :
    List String → Nat → Nat → Bool → String → List (String × List String)
  | [], _, _, _, _ => []
  | func_var :: rest, subdir_count, number_of_files_in_subdir, is_subdir_needed, func_var_dir =>
    let func_var_testcase_files := testcase_files.filter (fun f => funcVarMatches func_var f)
    let c := func_var_testcase_files.length
    let needed := if c + number_of_files_in_subdir > file_count_limit then true else is_subdir_needed
    if needed then
      (subdirName subdir_count, func_var_testcase_files) ::
        moveGo testcase_files file_count_limit rest (subdir_count + 1) c false
          (subdirName subdir_count)
    else
      (func_var_dir, func_var_testcase_files) ::
        moveGo testcase_files file_count_limit rest subdir_count
          (number_of_files_in_subdir + c) is_subdir_needed func_var_dir

/-- Embedding of `move_testcase_to_split_directories` as the assignment
it computes: the list, in variant order, of (subdirectory name, files of
that variant moved there).  The state starts at subdirectory index 1,
zero files placed, and the new-subdirectory flag set. -/
def move_testcase_to_split_directories (functional_variants testcase_files : List String)
    (file_count_limit : Nat) : List (String × List String) :=
  moveGo testcase_files file_count_limit functional_variants 1 0 true ""

/-! ### Elapsed-time formatting -/

/-- Python's `round` to an integer: nearest integer, ties to even. -/
def pyRound (q : ℚ) : ℤ :=
  let f : ℤ := ⌊q⌋
  if q - f < 1 / 2 then f
  else if (1 : ℚ) / 2 < q - f then f + 1
  else if Even f then f else f + 1

/-- The pluralisation used by `convertSecondsToDHMS`:
`"" if n == 1 else "s"`. -/
def plural (n : ℤ) : String :=
  if n = 1 then "" else "s"

/-- Decimal rendering of `n/100` (the value of `round(seconds, 2)` for
`0 <= seconds < 1`), as `str` prints it: a trailing zero of the
fractional part is dropped, but at least one fractional digit is kept. -/
def formatHundredths (n : ℤ) : String :=
  let whole := n.fdiv 100
  let rem := n.fmod 100
  if rem = 0 then toString whole ++ ".0"
  else if rem.fmod 10 = 0 then toString whole ++ "." ++ toString (rem.fdiv 10)
  else if rem < 10 then toString whole ++ ".0" ++ toString rem
  else toString whole ++ "." ++ toString rem

/-- Embedding of `convertSecondsToDHMS`.  Python's float argument is
modelled over `ℚ`; on the inputs the specification discusses the two
arithmetics agree.  For `0 <= seconds < 1` the value is rounded to two
decimal places and printed; otherwise it is rounded to an integer and
decomposed with Python's floor-based `divmod`. -/
def convertSecondsToDHMS (seconds : ℚ) : String :=
  if 0 ≤ seconds ∧ seconds < 1 then
    formatHundredths (pyRound (seconds * 100))
  else
    let s := pyRound seconds
    let minutes := s.fdiv 60
    let seconds2 := s.fmod 60
    let hours := minutes.fdiv 60
    let minutes2 := minutes.fmod 60
    let days := hours.fdiv 24
    let hours2 := hours.fmod 24
    toString days ++ " day" ++ plural days ++ ", " ++
      toString hours2 ++ " hour" ++ plural hours2 ++ ", " ++
      toString minutes2 ++ " minute" ++ plural minutes2 ++ ", " ++
      toString seconds2 ++ " second" ++ plural seconds2

/-! ### CSV finding-id rewriting -/

/-- Python's `row[i] = v` on a list: in range it updates, out of range
it raises `IndexError` (modelled as `none`). -/
def setColumn (row : List String) (i : Nat) (v : String) : Option (List String) :=
  if i < row.length then some (row.set i v) else none

/-- The body loop of `generate_unique_finding_ids`: write the running
id (starting at `uid`, incremented per row) into column `i` of every
row. -/
def assignIds (i : Nat) : Nat → List (List String) → Option (List (List String))
  | _, [] => some []
  | uid, row :: rest =>
    match setColumn row i (toString uid), assignIds i (uid + 1) rest with
    | some r, some rs => some (r :: rs)
    | _, _ => none

/-- Embedding of `generate_unique_finding_ids` on the parsed CSV (list
of rows, first row the header).  `next(reader)` on an empty file raises
`StopIteration`; a header without a `finding_id` column prints a message
and calls `exit()`; otherwise the header is written back and the
`finding_id` column of each row is replaced by `1, 2, 3, ...`. -/
def generate_unique_finding_ids (rows : List (List String)) :
    Except String (List (List String)) :=
  match rows with
  | [] => .error "StopIteration"
  | header :: body =>
    match header.indexOf? "finding_id" with
    | none => .error "finding_id does not exist in CSV header"
    | some finding_id_index =>
      match assignIds finding_id_index 1 body with
      | some out => .ok (header :: out)
      | none => .error "IndexError"

end PyCommon

namespace PyCommon

/-! ## Theorems -/

/-- Concrete corpus for the bucketing-boundary scenario: three
functional variants whose filtered file counts are 3, 3 and 6. -/
def c1Variants : List String := ["aaa", "bbb", "ccc"]

/-- The twelve files of the bucketing-boundary scenario. -/
def c1Files : List String :=
  ["t__aaa_01.c", "t__aaa_02.c", "t__aaa_03.c",
   "t__bbb_01.c", "t__bbb_02.c", "t__bbb_03.c",
   "t__ccc_01.c", "t__ccc_02.c", "t__ccc_03.c",
   "t__ccc_04.c", "t__ccc_05.c", "t__ccc_06.c"]

/-- C1 (counterexample): with `file_count_limit = 5` and variant file
counts `[3, 3, 6]`, the bucketer does NOT produce the claimed layout
`s01 = variant1+variant2, s02 = variant3`: the subdirectories assigned
to the three variants are not `[s01, s01, s02]`. -/
theorem claim_C1_counterexample :
    (move_testcase_to_split_directories c1Variants c1Files 5).map Prod.fst ≠
      ["s01", "s01", "s02"] := by
  decide

/-- C1 (amended): with `file_count_limit = 5` and variant file counts
`[3, 3, 6]` processed in order, the check `count + current > limit`
fires already for variant 2 (3 + 3 > 5), so every variant opens its own
subdirectory: `s01` holds variant 1 (3 files), `s02` holds variant 2
(3 files), and `s03` holds variant 3's 6 files alone (placed whole even
though 6 exceeds the limit). -/
theorem claim_C1 :
    move_testcase_to_split_directories c1Variants c1Files 5 =
      [("s01", ["t__aaa_01.c", "t__aaa_02.c", "t__aaa_03.c"]),
       ("s02", ["t__bbb_01.c", "t__bbb_02.c", "t__bbb_03.c"]),
       ("s03", ["t__ccc_01.c", "t__ccc_02.c", "t__ccc_03.c",
                "t__ccc_04.c", "t__ccc_05.c", "t__ccc_06.c"])] := by
  decide

/-- C5: inside `move_testcase_to_split_directories`, subdirectory
indices 1 through 9 yield the names `s01` .. `s09` and index 10 yields
exactly `s10` (no extra leading zero): witnessed both on a run of the
bucketer that opens ten subdirectories and directly on the naming
code. -/
theorem claim_C5 :
    (move_testcase_to_split_directories
        ["w1", "w2", "w3", "w4", "w5", "w6", "w7", "w8", "w9", "w10"]
        ["x__w1_01.c", "x__w2_01.c", "x__w3_01.c", "x__w4_01.c", "x__w5_01.c",
         "x__w6_01.c", "x__w7_01.c", "x__w8_01.c", "x__w9_01.c", "x__w10_01.c"]
        0).map Prod.fst =
      ["s01", "s02", "s03", "s04", "s05", "s06", "s07", "s08", "s09", "s10"] ∧
    (List.range 10).map (fun k => subdirName (k + 1)) =
      ["s01", "s02", "s03", "s04", "s05", "s06", "s07", "s08", "s09", "s10"] := by
  constructor
  · decide
  · decide

theorem pyRound_intCast (n : ℤ) : pyRound (n : ℚ) = n := by
  simp [pyRound, Int.floor_intCast]

/-- C8: `convertSecondsToDHMS 0.4 = "0.4"`,
`convertSecondsToDHMS 90 = "0 days, 0 hours, 1 minute, 30 seconds"`,
and in the long form a unit word takes no `s` exactly when its value is
1 (value 0 is plural too). -/
theorem claim_C8 :
    convertSecondsToDHMS (2 / 5) = "0.4" ∧
    convertSecondsToDHMS 90 = "0 days, 0 hours, 1 minute, 30 seconds" ∧
    ∀ n : ℤ, plural n = "" ↔ n = 1 := by
  refine ⟨?_, ?_, fun n => ?_⟩
  · rw [convertSecondsToDHMS, if_pos (by constructor <;> norm_num)]
    have h1 : (2 / 5 : ℚ) * 100 = ((40 : ℤ) : ℚ) := by norm_num
    rw [h1, pyRound_intCast]
    decide
  · rw [convertSecondsToDHMS, if_neg (by rintro ⟨-, h⟩; norm_num at h)]
    have h1 : (90 : ℚ) = ((90 : ℤ) : ℚ) := by norm_num
    rw [h1, pyRound_intCast]
    decide
  · by_cases h : n = 1
    · simp [plural, h]
    · simp [plural, h]

theorem assignIds_total (i : Nat) :
    ∀ (body : List (List String)) (u : Nat), (∀ row ∈ body, i < row.length) →
    ∃ out, assignIds i u body = some out ∧ out.length = body.length ∧
      ∀ k (hk : k < body.length) (hk' : k < out.length),
        out.get ⟨k, hk'⟩ = (body.get ⟨k, hk⟩).set i (toString (k + u)) := by
  intro body
  induction body with
  | nil =>
    intro u _
    exact ⟨[], rfl, rfl, fun k hk => absurd hk (Nat.not_lt_zero k)⟩
  | cons row rest ih =>
    intro u h
    obtain ⟨out', hout', hlen', hget'⟩ := ih (u + 1) (fun r hr => h r (List.mem_cons_of_mem _ hr))
    have hrow : i < row.length := h row (List.mem_cons_self _ _)
    refine ⟨row.set i (toString u) :: out', ?_, by simp [hlen'], ?_⟩
    · simp [assignIds, setColumn, if_pos hrow, hout']
    · intro k hk hk'
      match k with
      | 0 => simp
      | k + 1 =>
        have hk₁ : k < rest.length := Nat.lt_of_succ_lt_succ hk
        have hk₂ : k < out'.length := Nat.lt_of_succ_lt_succ hk'
        have := hget' k hk₁ hk₂
        simpa [Nat.add_comm, Nat.add_assoc, Nat.add_left_comm] using this

/-- C9: `generate_unique_finding_ids` hard-fails when the header has no
`finding_id` column; when the column exists (at index `i`) and every
row is wide enough to carry it (Python would raise `IndexError`
otherwise), the output keeps the header and the rows in order, with the
`finding_id` column rewritten to `1, 2, 3, ...`. -/
theorem claim_C9 :
    (∀ header body, "finding_id" ∉ header →
      generate_unique_finding_ids (header :: body) =
        .error "finding_id does not exist in CSV header") ∧
    (∀ header body i, header.indexOf? "finding_id" = some i →
      (∀ row ∈ body, i < row.length) →
      ∃ out, generate_unique_finding_ids (header :: body) = .ok (header :: out) ∧
        out.length = body.length ∧
        ∀ k (hk : k < body.length) (hk' : k < out.length),
          out.get ⟨k, hk'⟩ = (body.get ⟨k, hk⟩).set i (toString (k + 1))) := by
  constructor
  · intro header body h
    have hnone : header.indexOf? "finding_id" = none := by
      rw [List.indexOf?_eq_none_iff]
      intro x hx
      simp only [beq_iff_eq]
      rintro rfl
      exact h hx
    simp [generate_unique_finding_ids, hnone]
  · intro header body i hidx h
    obtain ⟨out, hout, hlen, hget⟩ := assignIds_total i body 1 h
    exact ⟨out, by simp [generate_unique_finding_ids, hidx, hout], hlen, hget⟩

/-- Closed instance of `claim_C9`: header `["a","b"]` hard-fails, and
the two-row CSV with header `["a","finding_id"]` is rewritten to
sequential ids `1, 2`. -/
theorem claim_C9_witness :
    generate_unique_finding_ids [["a", "b"], ["x"]] =
      .error "finding_id does not exist in CSV header" ∧
    ∃ out, generate_unique_finding_ids [["a", "finding_id"], ["x", "9"], ["y", "9"]] =
        .ok (["a", "finding_id"] :: out) ∧
      out.length = ([["x", "9"], ["y", "9"]] : List (List String)).length ∧
      ∀ k (hk : k < ([["x", "9"], ["y", "9"]] : List (List String)).length)
        (hk' : k < out.length),
        out.get ⟨k, hk'⟩ =
          (([["x", "9"], ["y", "9"]] : List (List String)).get ⟨k, hk⟩).set 1
            (toString (k + 1)) :=
  ⟨claim_C9.1 ["a", "b"] [["x"]] (by decide),
   claim_C9.2 ["a", "finding_id"] [["x", "9"], ["y", "9"]] 1 (by decide) (by decide)⟩

/-- C6: a file name rejected by the testcase filename grammar makes
`break_up_filename` return the record whose six fields all hold the
initialised empty value, together with exactly one diagnostic naming the
offending file; the function returns normally (the embedding is total —
the Python path raises nothing and does not exit). -/
theorem claim_C6 :
    ∀ s, parseTestcaseFilenameL s.data = none →
      break_up_filename s = (⟨"", "", "", "", some "", ""⟩, [breakUpWarning s]) := by
  intro s h
  simp [break_up_filename, h]

/-- Closed instance of `claim_C6` at the non-matching name
`notamatch.txt`. -/
theorem claim_C6_witness :
    parseTestcaseFilenameL "notamatch.txt".data = none ∧
    break_up_filename "notamatch.txt" =
      (⟨"", "", "", "", some "", ""⟩, [breakUpWarning "notamatch.txt"]) :=
  ⟨by decide, claim_C6 "notamatch.txt" (by decide)⟩

/-- C10: when the grammar matches but the optional subfile group does
not participate, `break_up_filename` reports `None` (here `none`) for
`testcase_subfile_id`, while the no-match path reports the empty string
(here `some ""`). -/
theorem claim_C10 :
    (∀ s p, parseTestcaseFilenameL s.data = some p → p.subfile_id = none →
      (break_up_filename s).1.testcase_subfile_id = none) ∧
    (∀ s, parseTestcaseFilenameL s.data = none →
      (break_up_filename s).1.testcase_subfile_id = some "") := by
  constructor
  · intro s p h hsub
    simp [break_up_filename, h, hsub]
  · intro s h
    simp [break_up_filename, h]

/-- Closed instance of `claim_C10`: `cwe1_n__f_01.c` matches with no
subfile marker and gets `none`; `zzz` does not match and gets
`some ""`. -/
theorem claim_C10_witness :
    (break_up_filename "cwe1_n__f_01.c").1.testcase_subfile_id = none ∧
    (break_up_filename "zzz").1.testcase_subfile_id = some "" :=
  ⟨claim_C10.1 "cwe1_n__f_01.c" ⟨['1'], ['n'], ['f'], ['0', '1'], none, ['c']⟩
      (by decide) rfl,
   claim_C10.2 "zzz" (by decide)⟩

/-- C7: `break_up_cpp_function_name` returns exactly the
`function_name` capture when `get_functionname_c_regex` matches
(case-insensitively) and the input unchanged when it does not; the
embedding is a total function with no warning channel, matching the
Python body, which can neither raise nor print. -/
theorem claim_C7 :
    ∀ s,
      (parseFunctionNameL s.data = none → break_up_cpp_function_name s = s) ∧
      (∀ p, parseFunctionNameL s.data = some p →
        break_up_cpp_function_name s = String.mk p.function_name) := by
  intro s
  constructor
  · intro h
    simp [break_up_cpp_function_name, h]
  · intro p h
    simp [break_up_cpp_function_name, h]

/-- Closed instance of `claim_C7`: a non-matching identifier passes
through unchanged, a matching one is reduced to its trailing
`function_name` capture. -/
theorem claim_C7_witness :
    break_up_cpp_function_name "printLine" = "printLine" ∧
    break_up_cpp_function_name "CWE123_foo__bar_01_goodSink" = "goodSink" :=
  ⟨(claim_C7 "printLine").1 (by decide),
   (claim_C7 "CWE123_foo__bar_01_goodSink").2
      ⟨['1', '2', '3'], ['f', 'o', 'o'], ['b', 'a', 'r'], ['0', '1'], [],
       ['g', 'o', 'o', 'd', 'S', 'i', 'n', 'k']⟩ (by decide)⟩


theorem count_filter_full (l : List String) (p : String → Bool) (f : String) :
    (l.filter p).count f = if p f then l.count f else 0 := by
  by_cases h : p f = true
  · rw [if_pos h, List.count_filter h]
  · rw [if_neg h, List.count_eq_zero]
    intro hmem
    exact h (List.mem_filter.mp hmem).2

theorem moveGo_map_snd (files : List String) (limit : Nat) :
    ∀ (vs : List String) (cnt n : Nat) (needed : Bool) (cur : String),
      (moveGo files limit vs cnt n needed cur).map Prod.snd =
        vs.map (fun v => files.filter (fun f => funcVarMatches v f)) := by
  intro vs
  induction vs with
  | nil => intro cnt n needed cur; rfl
  | cons v rest ih =>
    intro cnt n needed cur
    simp only [moveGo]
    split
    · simp [ih]
    · split
      · simp [ih]
      · simp [ih]

theorem countP_sum_filter (f : String) (files : List String) :
    ∀ vs : List String,
      ((vs.map (fun v => files.filter (fun g => funcVarMatches v g))).map
        (List.count f)).sum =
        vs.countP (fun v => funcVarMatches v f) * files.count f := by
  intro vs
  induction vs with
  | nil => simp
  | cons v rest ih =>
    simp only [List.map_cons, List.sum_cons, List.countP_cons, ih, count_filter_full]
    by_cases hv : funcVarMatches v f = true
    · simp [hv, Nat.add_mul]
      omega
    · simp [hv]

theorem two_le_countP (l : List String) (p : String → Bool) :
    ∀ (i j : Nat) (hi : i < l.length) (hj : j < l.length), i ≠ j →
      p (l.get ⟨i, hi⟩) = true → p (l.get ⟨j, hj⟩) = true → 2 ≤ l.countP p := by
  induction l with
  | nil => intro i j hi; exact absurd hi (Nat.not_lt_zero i)
  | cons a t ih =>
    intro i j hi hj hne hpi hpj
    rw [List.countP_cons]
    match i, j with
    | 0, 0 => exact absurd rfl hne
    | 0, j + 1 =>
      have hj' : j < t.length := Nat.lt_of_succ_lt_succ hj
      have hpa : p a = true := hpi
      have hpj' : p (t.get ⟨j, hj'⟩) = true := hpj
      have h1 : 0 < t.countP p :=
        List.countP_pos_iff.mpr ⟨t.get ⟨j, hj'⟩, List.get_mem t j hj', hpj'⟩
      rw [if_pos hpa]
      omega
    | i + 1, 0 =>
      have hi' : i < t.length := Nat.lt_of_succ_lt_succ hi
      have hpa : p a = true := hpj
      have hpi' : p (t.get ⟨i, hi'⟩) = true := hpi
      have h1 : 0 < t.countP p :=
        List.countP_pos_iff.mpr ⟨t.get ⟨i, hi'⟩, List.get_mem t i hi', hpi'⟩
      rw [if_pos hpa]
      omega
    | i + 1, j + 1 =>
      have h2 := ih i j (Nat.lt_of_succ_lt_succ hi) (Nat.lt_of_succ_lt_succ hj)
        (fun h => hne (by rw [h])) hpi hpj
      omega

/-- C2 (amended): provided every input file is matched by the filter of
exactly one entry of the functional-variant list, the bucketer places
each file exactly once (the multiset of all placed files equals the
input multiset) and never splits the files matching one functional
variant across two subdirectories. -/
theorem claim_C2 (functional_variants testcase_files : List String) (file_count_limit : Nat)
    (H : ∀ f ∈ testcase_files,
      functional_variants.countP (fun v => funcVarMatches v f) = 1) :
    (∀ f, ((move_testcase_to_split_directories functional_variants testcase_files
        file_count_limit).flatMap Prod.snd).count f = testcase_files.count f) ∧
    (∀ e₁ ∈ move_testcase_to_split_directories functional_variants testcase_files
        file_count_limit,
     ∀ e₂ ∈ move_testcase_to_split_directories functional_variants testcase_files
        file_count_limit,
     ∀ v ∈ functional_variants, ∀ f₁ ∈ e₁.2, ∀ f₂ ∈ e₂.2,
      funcVarMatches v f₁ = true → funcVarMatches v f₂ = true → e₁.1 = e₂.1) := by
  have hsnd := moveGo_map_snd testcase_files file_count_limit functional_variants 1 0 true ""
  constructor
  · intro f
    rw [move_testcase_to_split_directories, List.flatMap_def, hsnd,
      List.count_flatten, countP_sum_filter]
    by_cases hf : f ∈ testcase_files
    · rw [H f hf, Nat.one_mul]
    · rw [List.count_eq_zero.mpr hf, Nat.mul_zero]
  · intro e₁ he₁ e₂ he₂ v hv f₁ hf₁ f₂ hf₂ hm₁ hm₂
    rw [move_testcase_to_split_directories] at he₁ he₂
    have hlen : (moveGo testcase_files file_count_limit functional_variants 1 0 true "").length =
        functional_variants.length := by
      have := congrArg List.length hsnd
      simpa using this
    have hgetsnd : ∀ (k : Nat)
        (hk : k < (moveGo testcase_files file_count_limit functional_variants 1 0 true "").length),
        ((moveGo testcase_files file_count_limit functional_variants 1 0 true "").get ⟨k, hk⟩).2 =
          testcase_files.filter
            (fun g => funcVarMatches (functional_variants.get ⟨k, hlen ▸ hk⟩) g) := by
      intro k hk
      have h1 : ((moveGo testcase_files file_count_limit functional_variants 1 0 true "").map
          Prod.snd).get? k =
          (functional_variants.map
            (fun v => testcase_files.filter (fun g => funcVarMatches v g))).get? k := by
        rw [hsnd]
      rw [List.get?_map, List.get?_map, List.get?_eq_get hk, List.get?_eq_get (hlen ▸ hk)] at h1
      simpa using h1
    obtain ⟨ni, hni⟩ := List.mem_iff_get.mp he₁
    obtain ⟨nj, hnj⟩ := List.mem_iff_get.mp he₂
    obtain ⟨nk, hnk⟩ := List.mem_iff_get.mp hv
    have hi2 := hgetsnd ni.1 ni.2
    have hj2 := hgetsnd nj.1 nj.2
    rw [hni] at hi2
    rw [hnj] at hj2
    have hf₁' := List.mem_filter.mp (hi2 ▸ hf₁)
    have hf₂' := List.mem_filter.mp (hj2 ▸ hf₂)
    have hki : nk.1 = ni.1 := by
      by_contra hne
      have h2 := two_le_countP functional_variants (fun w => funcVarMatches w f₁)
        nk.1 ni.1 nk.2 (hlen ▸ ni.2) hne (by rw [hnk]; exact hm₁) hf₁'.2
      have h3 := H f₁ hf₁'.1
      omega
    have hkj : nk.1 = nj.1 := by
      by_contra hne
      have h2 := two_le_countP functional_variants (fun w => funcVarMatches w f₂)
        nk.1 nj.1 nk.2 (hlen ▸ nj.2) hne (by rw [hnk]; exact hm₂) hf₂'.2
      have h3 := H f₂ hf₂'.1
      omega
    have hij : ni = nj := Fin.ext (hki ▸ hkj)
    rw [← hni, ← hnj, hij]

/-- C2 (counterexample): a run in which a file matches no functional
variant's filter loses that file — the placed files do not cover the
input set. -/
theorem claim_C2_counterexample :
    ("zzz.c" ∈ (["zzz.c"] : List String)) ∧
    "zzz.c" ∉
      (move_testcase_to_split_directories ["aaa"] ["zzz.c"] 5).flatMap Prod.snd := by
  decide

/-- Closed instance of `claim_C2` on the `[3, 3, 6]` corpus, where each
file matches exactly one variant filter. -/
theorem claim_C2_witness :
    (∀ f ∈ c1Files, c1Variants.countP (fun v => funcVarMatches v f) = 1) ∧
    ((∀ f, ((move_testcase_to_split_directories c1Variants c1Files 5).flatMap
        Prod.snd).count f = c1Files.count f) ∧
     (∀ e₁ ∈ move_testcase_to_split_directories c1Variants c1Files 5,
      ∀ e₂ ∈ move_testcase_to_split_directories c1Variants c1Files 5,
      ∀ v ∈ c1Variants, ∀ f₁ ∈ e₁.2, ∀ f₂ ∈ e₂.2,
        funcVarMatches v f₁ = true → funcVarMatches v f₂ = true → e₁.1 = e₂.1)) :=
  ⟨by decide, claim_C2 c1Variants c1Files 5 (by decide)⟩


theorem dotfree_align : ∀ (a b R₁ R₂ : List Char), '.' ∉ a → '.' ∉ b →
    a ++ '.' :: R₁ = b ++ '.' :: R₂ → a = b ∧ R₁ = R₂ := by
  intro a
  induction a with
  | nil =>
    intro b R₁ R₂ _ hb h
    cases b with
    | nil => simpa using h
    | cons y ys =>
      simp only [List.nil_append, List.cons_append, List.cons.injEq] at h
      exact absurd (h.1 ▸ List.mem_cons_self y ys) hb
  | cons x xs ih =>
    intro b R₁ R₂ ha hb h
    cases b with
    | nil =>
      simp only [List.nil_append, List.cons_append, List.cons.injEq] at h
      exact absurd (h.1 ▸ List.mem_cons_self x xs) ha
    | cons y ys =>
      simp only [List.cons_append, List.cons.injEq] at h
      obtain ⟨rfl, h2⟩ := h
      have := ih ys R₁ R₂ (fun hm => ha (List.mem_cons_of_mem _ hm))
        (fun hm => hb (List.mem_cons_of_mem _ hm)) h2
      exact ⟨by rw [this.1], this.2⟩

theorem extListPrimary_rev_dotfree : ∀ e ∈ extListPrimary, '.' ∉ e.reverse := by
  intro e he
  simp only [extListPrimary, List.mem_cons, List.not_mem_nil, or_false] at he
  rcases he with rfl | rfl | rfl <;> decide

/-- C3 (amended): a name whose flow-variant position reads `81` or `82`
directly followed by `_bad` and the extension — that is, any name of
the form `p ++ "_81_bad." ++ ext` or `p ++ "_82_bad." ++ ext` with
`ext` one of `c`, `cpp`, `java` — never matches the primary testcase
filename grammar: the `(?!8[12]_bad)` lookahead rejects the only
decomposition that could place the flow variant there. -/
theorem claim_C3 (p : List Char) (x : Char) (e : List Char)
    (hx : x = '1' ∨ x = '2') (he : e ∈ extListPrimary) :
    ¬ primaryMatchesLower (p ++ '_' :: '8' :: x :: '_' :: 'b' :: 'a' :: 'd' :: '.' :: e) := by
  rintro ⟨num, nm, fx, flow, u, sub, ext, heq, hnum0, hnumd, hnm, hfx, hflow0, hflowd,
    hu, hsub, hext, hla8, hla580⟩
  have h := congrArg List.reverse heq
  simp only [List.reverse_append, List.reverse_cons, List.append_assoc, List.nil_append,
    List.cons_append, List.append_nil] at h
  obtain ⟨-, h2⟩ := dotfree_align e.reverse ext.reverse _ _
    (extListPrimary_rev_dotfree e he) (extListPrimary_rev_dotfree ext hext) h
  have hfrev : flow.reverse ≠ [] := by
    intro hnil
    exact hflow0 (by simpa using congrArg List.reverse hnil)
  obtain ⟨g, gs, hg⟩ := List.exists_cons_of_ne_nil hfrev
  have hgf : g ∈ flow := by
    rw [← List.mem_reverse, hg]
    exact List.mem_cons_self g gs
  rcases hsub with rfl | rfl | rfl
  · rcases hu with rfl | rfl
    · rw [hg] at h2
      simp only [List.reverse_nil, List.nil_append, List.cons_append, List.cons.injEq] at h2
      have := hflowd g hgf
      rw [← h2.1] at this
      exact absurd this (by decide)
    · simp only [List.reverse_nil, List.reverse_cons, List.nil_append, List.cons_append,
        List.singleton_append, List.cons.injEq] at h2
      exact absurd h2.1 (by decide)
  · simp only [List.reverse_nil, List.reverse_cons, List.nil_append, List.cons_append,
      List.singleton_append, List.cons.injEq] at h2
    exact absurd h2.1 (by decide)
  · rcases hu with rfl | rfl
    · rw [hg] at h2
      cases gs with
      | nil =>
        simp only [List.reverse_nil, List.reverse_cons, List.nil_append, List.cons_append,
          List.singleton_append, List.cons.injEq, true_and] at h2
        exact absurd h2.2.1 (by decide)
      | cons k ks =>
        cases ks with
        | nil =>
          simp only [List.reverse_nil, List.reverse_cons, List.nil_append, List.cons_append,
            List.singleton_append, List.cons.injEq, true_and] at h2
          obtain ⟨hxg, h8k, -⟩ := h2
          have hflow : flow = ['8', x] := by
            have h5 := congrArg List.reverse hg
            simpa [← hxg, ← h8k] using h5
          rw [hflow] at hla8
          simp only [List.cons_append, List.nil_append, List.singleton_append] at hla8
          rcases hx with rfl | rfl
          · simp [la8xB] at hla8
          · simp [la8xB] at hla8
        | cons m ms =>
          simp only [List.reverse_nil, List.reverse_cons, List.nil_append, List.cons_append,
            List.singleton_append, List.cons.injEq, true_and] at h2
          obtain ⟨-, -, hm, -⟩ := h2
          have hmf : m ∈ flow := by
            rw [← List.mem_reverse, hg]
            exact List.mem_cons_of_mem _ (List.mem_cons_of_mem _ (List.mem_cons_self m ms))
          have := hflowd m hmf
          rw [← hm] at this
          exact absurd this (by decide)
    · simp only [List.reverse_nil, List.reverse_cons, List.nil_append, List.cons_append,
        List.singleton_append, List.cons.injEq, true_and] at h2
      rcases hx with rfl | rfl
      · exact absurd h2.1 (by decide)
      · exact absurd h2.1 (by decide)

/-- C3 (counterexample): the name `cwe1_x__y_81_bad_99a.c` contains
`_81_bad` before the extension, yet it matches the primary testcase
filename grammar (the greedy functional-variant group absorbs
`y_81_bad` and the flow variant becomes `99`), refuting the claim for
the class of names that merely contain `_81_bad`. -/
theorem claim_C3_counterexample :
    primary_testcase_filename_matches ("cwe1_x__y" ++ "_81_bad" ++ "_99a.c") := by
  refine ⟨['1'], ['x'], ['y', '_', '8', '1', '_', 'b', 'a', 'd'], ['9', '9'], [], ['a'], ['c'],
    ?_, ?_, ?_, ?_, ?_, ?_, ?_, ?_, ?_, ?_, ?_, ?_⟩ <;> decide

/-- Closed instance of `claim_C3`: `cwe1_x__y_81_bad.c` (the realistic
form, with the marker directly before the extension) does not match the
primary grammar. -/
theorem claim_C3_witness :
    (('1' = '1' ∨ '1' = '2') ∧ ['c'] ∈ extListPrimary) ∧
    ¬ primaryMatchesLower
      ("cwe1_x__y".data ++ '_' :: '8' :: '1' :: '_' :: 'b' :: 'a' :: 'd' :: '.' :: ['c']) :=
  ⟨⟨Or.inl rfl, by decide⟩,
   claim_C3 "cwe1_x__y".data '1' ['c'] (Or.inl rfl) (by decide)⟩


/-! ### Lemmas for the round-trip property of the filename grammar -/

theorem pickLongest_none {α : Type} (f : List Char → List Char → Option α) :
    ∀ (l pre : List Char), (∀ a b, l = a ++ b → f (pre ++ a) b = none) →
      pickLongest f pre l = none := by
  intro l
  induction l with
  | nil =>
    intro pre H
    have h := H [] [] rfl
    rw [List.append_nil] at h
    exact h
  | cons c rest ih =>
    intro pre H
    have hin : pickLongest f (pre ++ [c]) rest = none := by
      apply ih
      intro a b hab
      have := H (c :: a) b (by rw [hab]; rfl)
      simpa [List.append_assoc] using this
    have h0 := H [] (c :: rest) rfl
    rw [List.append_nil] at h0
    simp [pickLongest, hin, h0]

theorem pickLongest_some {α : Type} (f : List Char → List Char → Option α) :
    ∀ (l pre a₀ b₀ : List Char) (r : α), l = a₀ ++ b₀ → f (pre ++ a₀) b₀ = some r →
      (∀ a b, l = a ++ b → a₀.length < a.length → f (pre ++ a) b = none) →
      pickLongest f pre l = some r := by
  intro l
  induction l with
  | nil =>
    intro pre a₀ b₀ r heq hf H
    obtain ⟨rfl, rfl⟩ := List.append_eq_nil.mp heq.symm
    rw [List.append_nil] at hf
    simpa [pickLongest] using hf
  | cons c rest ih =>
    intro pre a₀ b₀ r heq hf H
    cases a₀ with
    | nil =>
      have hb : b₀ = c :: rest := by simpa using heq.symm
      subst hb
      have hin : pickLongest f (pre ++ [c]) rest = none := by
        apply pickLongest_none
        intro a b hab
        have := H (c :: a) b (by rw [hab]; rfl) (by simp)
        simpa [List.append_assoc] using this
      rw [List.append_nil] at hf
      simp [pickLongest, hin, hf]
    | cons c' a₀' =>
      obtain ⟨rfl, hrest⟩ : c = c' ∧ rest = a₀' ++ b₀ := by simpa using heq
      have hin : pickLongest f (pre ++ [c]) rest = some r := by
        apply ih (pre ++ [c]) a₀' b₀ r hrest (by simpa [List.append_assoc] using hf)
        intro a b hab hlen
        have := H (c :: a) b (by rw [hab]; rfl) (by simpa using Nat.succ_lt_succ hlen)
        simpa [List.append_assoc] using this
      simp [pickLongest, hin]

theorem takeWhile_dropWhile_append (p : Char → Bool) :
    ∀ (l r : List Char), (∀ c ∈ l, p c = true) → (∀ d, r.head? = some d → p d = false) →
      (l ++ r).takeWhile p = l ∧ (l ++ r).dropWhile p = r := by
  intro l
  induction l with
  | nil =>
    intro r _ hr
    cases r with
    | nil => exact ⟨rfl, rfl⟩
    | cons d rs =>
      have := hr d rfl
      simp [List.takeWhile_cons, List.dropWhile_cons, this]
  | cons c cs ih =>
    intro r hl hr
    have hc := hl c (List.mem_cons_self c cs)
    have := ih r (fun x hx => hl x (List.mem_cons_of_mem _ hx)) hr
    simp [List.takeWhile_cons, List.dropWhile_cons, hc, this.1, this.2]

theorem parseSubExt_noSub (ext : List Char) (hext : extOK ext = true) :
    parseSubExt ('.' :: ext) = some (none, ext) := by
  simp [parseSubExt, List.takeWhile_cons, List.dropWhile_cons, hext]

theorem parseSubExt_alt (sL ext : List Char) (h0 : sL ≠ []) (hdot : '.' ∉ sL)
    (halt : isSubfileAlt sL = true) (hext : extOK ext = true) :
    parseSubExt (sL ++ '.' :: ext) = some (some sL, ext) := by
  have hsplit := takeWhile_dropWhile_append (fun c => c != '.') sL ('.' :: ext)
    (fun c hc => by
      have : c ≠ '.' := fun h => hdot (h ▸ hc)
      simpa using this)
    (fun d hd => by
      have : d = '.' := by simpa using hd.symm
      simp [this])
  rw [parseSubExt]
  rw [hsplit.1, hsplit.2]
  simp [hext, halt, h0]

theorem parseFlowTail_nondigit (t : List Char)
    (h : ∀ d, t.head? = some d → d.isDigit = false) : parseFlowTail t = none := by
  have ht : t.takeWhile Char.isDigit = [] := by
    cases t with
    | nil => rfl
    | cons d rs => simp [List.takeWhile_cons, h d rfl]
  simp [parseFlowTail, ht]


theorem underscore_split (u subL ext : List Char)
    (hu : u = [] ∨ u = ['_']) (hsub : '_' ∉ subL) (hext : '_' ∉ ext) :
    ∀ (flow : List Char), (∀ c ∈ flow, c.isDigit = true) →
      ∀ a b, flow ++ u ++ subL ++ '.' :: ext = a ++ '_' :: b →
        u = ['_'] ∧ a = flow ∧ b = subL ++ '.' :: ext := by
  have base : ∀ a b, subL ++ '.' :: ext ≠ a ++ '_' :: b := by
    intro a b h
    have hm : '_' ∈ subL ++ '.' :: ext := by
      rw [h]
      exact List.mem_append_right a (List.mem_cons_self _ _)
    rcases List.mem_append.mp hm with h1 | h1
    · exact hsub h1
    · rcases List.mem_cons.mp h1 with h2 | h2
      · exact absurd h2 (by decide)
      · exact hext h2
  intro flow
  induction flow with
  | nil =>
    intro _ a b h
    rcases hu with rfl | rfl
    · simp only [List.nil_append] at h
      exact absurd h (base a b)
    · simp only [List.nil_append, List.cons_append, List.singleton_append] at h
      cases a with
      | nil =>
        simp only [List.nil_append, List.cons.injEq, true_and] at h
        exact ⟨rfl, rfl, h.symm⟩
      | cons y ys =>
        simp only [List.cons_append, List.cons.injEq] at h
        exact absurd h.2 (base ys b)
  | cons d ds ih =>
    intro hd a b h
    cases a with
    | nil =>
      simp only [List.nil_append, List.cons_append, List.cons.injEq] at h
      have hdig := hd d (List.mem_cons_self _ _)
      rw [h.1] at hdig
      exact absurd hdig (by decide)
    | cons y ys =>
      simp only [List.cons_append, List.cons.injEq] at h
      obtain ⟨rfl, h2⟩ := h
      obtain ⟨hu', ha, hb⟩ := ih (fun c hc => hd c (List.mem_cons_of_mem _ hc)) ys b h2
      exact ⟨hu', by rw [ha], hb⟩

theorem fx_underscore_split (flow u subL ext : List Char)
    (hflowd : ∀ c ∈ flow, c.isDigit = true)
    (hu : u = [] ∨ u = ['_']) (hsub : '_' ∉ subL) (hext : '_' ∉ ext) :
    ∀ (fx : List Char), '_' ∉ fx →
      ∀ a b, fx ++ '_' :: (flow ++ u ++ subL ++ '.' :: ext) = a ++ '_' :: b →
        (a = fx ∧ b = flow ++ u ++ subL ++ '.' :: ext) ∨
        (u = ['_'] ∧ a = fx ++ '_' :: flow ∧ b = subL ++ '.' :: ext) := by
  intro fx
  induction fx with
  | nil =>
    intro _ a b h
    simp only [List.nil_append] at h
    cases a with
    | nil =>
      simp only [List.nil_append, List.cons.injEq, true_and] at h
      exact Or.inl ⟨rfl, h.symm⟩
    | cons y ys =>
      simp only [List.cons_append, List.cons.injEq] at h
      obtain ⟨hy, h2⟩ := h
      obtain ⟨hu', ha, hb⟩ := underscore_split u subL ext hu hsub hext flow hflowd ys b h2
      refine Or.inr ⟨hu', ?_, hb⟩
      rw [← hy, ha]
      rfl
  | cons f fs ih =>
    intro hfx a b h
    cases a with
    | nil =>
      simp only [List.nil_append, List.cons_append, List.cons.injEq] at h
      refine absurd ?_ hfx
      rw [← h.1]
      exact List.mem_cons_self f fs
    | cons y ys =>
      simp only [List.cons_append, List.cons.injEq] at h
      obtain ⟨rfl, h2⟩ := h
      rcases ih (fun hm => hfx (List.mem_cons_of_mem _ hm)) ys b h2 with ⟨ha, hb⟩ | ⟨hu', ha, hb⟩
      · exact Or.inl ⟨by rw [ha], hb⟩
      · refine Or.inr ⟨hu', ?_, hb⟩
        rw [ha]
        rfl

theorem fxpart_no_double_underscore (flow u subL ext : List Char)
    (hflow0 : flow ≠ []) (hflowd : ∀ c ∈ flow, c.isDigit = true)
    (hu : u = [] ∨ u = ['_']) (hsub : '_' ∉ subL) (hext : '_' ∉ ext) :
    ∀ (fx : List Char), '_' ∉ fx →
      ∀ a t, fx ++ '_' :: (flow ++ u ++ subL ++ '.' :: ext) ≠ a ++ '_' :: '_' :: t := by
  intro fx
  induction fx with
  | nil =>
    intro _ a t h
    simp only [List.nil_append] at h
    cases a with
    | nil =>
      simp only [List.nil_append, List.cons.injEq, true_and] at h
      obtain ⟨g, gs, hg⟩ := List.exists_cons_of_ne_nil hflow0
      rw [hg] at h
      simp only [List.cons_append, List.cons.injEq] at h
      have hdig : g.isDigit = true := hflowd g (by rw [hg]; exact List.mem_cons_self _ _)
      rw [h.1] at hdig
      exact absurd hdig (by decide)
    | cons y ys =>
      simp only [List.cons_append, List.cons.injEq] at h
      obtain ⟨-, h2⟩ := h
      obtain ⟨-, -, hb⟩ := underscore_split u subL ext hu hsub hext flow hflowd ys ('_' :: t) h2
      cases subL with
      | nil =>
        simp only [List.nil_append, List.cons.injEq] at hb
        exact absurd hb.1 (by decide)
      | cons s ss =>
        simp only [List.cons_append, List.cons.injEq] at hb
        refine absurd ?_ hsub
        rw [hb.1]
        exact List.mem_cons_self s ss
  | cons f fs ih =>
    intro hfx a t h
    cases a with
    | nil =>
      simp only [List.nil_append, List.cons_append, List.cons.injEq] at h
      refine absurd ?_ hfx
      rw [← h.1]
      exact List.mem_cons_self f fs
    | cons y ys =>
      simp only [List.cons_append, List.cons.injEq] at h
      exact ih (fun hm => hfx (List.mem_cons_of_mem _ hm)) ys t h.2

theorem name_double_underscore_split (fx flow u subL ext : List Char)
    (hfx : '_' ∉ fx) (hflow0 : flow ≠ []) (hflowd : ∀ c ∈ flow, c.isDigit = true)
    (hu : u = [] ∨ u = ['_']) (hsub : '_' ∉ subL) (hext : '_' ∉ ext) :
    ∀ (nm : List Char), '_' ∉ nm →
      ∀ a t,
        nm ++ '_' :: '_' :: (fx ++ '_' :: (flow ++ u ++ subL ++ '.' :: ext)) =
          a ++ '_' :: '_' :: t →
        (a = nm ∧ t = fx ++ '_' :: (flow ++ u ++ subL ++ '.' :: ext)) ∨
        (fx = [] ∧ a = nm ++ ['_'] ∧ t = flow ++ u ++ subL ++ '.' :: ext) := by
  intro nm
  induction nm with
  | nil =>
    intro _ a t h
    simp only [List.nil_append] at h
    cases a with
    | nil =>
      simp only [List.nil_append, List.cons.injEq, true_and] at h
      exact Or.inl ⟨rfl, h.symm⟩
    | cons y ys =>
      simp only [List.cons_append, List.cons.injEq] at h
      obtain ⟨hy, h2⟩ := h
      cases ys with
      | nil =>
        simp only [List.nil_append, List.cons.injEq, true_and] at h2
        cases fx with
        | nil =>
          simp only [List.nil_append, List.cons.injEq, true_and] at h2
          refine Or.inr ⟨rfl, ?_, h2.symm⟩
          rw [← hy]
          rfl
        | cons f fs =>
          simp only [List.cons_append, List.cons.injEq] at h2
          refine absurd ?_ hfx
          rw [← h2.1]
          exact List.mem_cons_self f fs
      | cons y' ys' =>
        simp only [List.cons_append, List.cons.injEq] at h2
        exact absurd h2.2
          (fxpart_no_double_underscore flow u subL ext hflow0 hflowd hu hsub hext fx hfx ys' t)
  | cons n ns ih =>
    intro hnm a t h
    cases a with
    | nil =>
      simp only [List.nil_append, List.cons_append, List.cons.injEq] at h
      refine absurd ?_ hnm
      rw [← h.1]
      exact List.mem_cons_self n ns
    | cons y ys =>
      simp only [List.cons_append, List.cons.injEq] at h
      obtain ⟨rfl, h2⟩ := h
      rcases ih (fun hm => hnm (List.mem_cons_of_mem _ hm)) ys t h2 with ⟨ha, ht⟩ | ⟨hfx0, ha, ht⟩
      · exact Or.inl ⟨by rw [ha], ht⟩
      · refine Or.inr ⟨hfx0, ?_, ht⟩
        rw [ha]
        rfl


theorem extOK_no_underscore_dot (ext : List Char) (h : extOK ext = true) :
    '_' ∉ ext ∧ '.' ∉ ext := by
  simp only [extOK, Bool.or_eq_true, beq_iff_eq] at h
  constructor
  · intro hm
    have h2 := List.mem_map_of_mem Char.toLower hm
    have e : ('_' : Char).toLower = '_' := by decide
    rw [e] at h2
    rcases h with ((h | h) | h) | h <;> rw [h] at h2 <;> revert h2 <;> decide
  · intro hm
    have h2 := List.mem_map_of_mem Char.toLower hm
    have e : ('.' : Char).toLower = '.' := by decide
    rw [e] at h2
    rcases h with ((h | h) | h) | h <;> rw [h] at h2 <;> revert h2 <;> decide

theorem parseFlowTail_eval (flow u ext : List Char) (sub : Option (List Char))
    (hflow0 : flow ≠ []) (hflowd : ∀ c ∈ flow, c.isDigit = true)
    (hu : u = [] ∨ u = ['_']) (hext : extOK ext = true)
    (hsub : ∀ s, sub = some s → s ≠ [] ∧ isSubfileAlt s = true ∧ '_' ∉ s ∧ '.' ∉ s ∧
      (∀ d, s.head? = some d → d.isDigit = false)) :
    parseFlowTail (flow ++ u ++ sub.getD [] ++ '.' :: ext) = some (flow, sub, ext) := by
  have hne : flow.isEmpty = false := by
    cases flow with
    | nil => exact absurd rfl hflow0
    | cons _ _ => rfl
  rcases hu with rfl | rfl
  · cases sub with
    | none =>
      simp only [Option.getD_none, List.nil_append]
      have hsplit := takeWhile_dropWhile_append Char.isDigit flow ('.' :: ext) hflowd
        (fun d hd => by
          have : '.' = d := by simpa using hd
          rw [← this]
          decide)
      simp [parseFlowTail, hsplit.1, hsplit.2, hne, parseSubExt_noSub ext hext]
    | some s =>
      obtain ⟨hs0, halt, hus, hdot, hshead⟩ := hsub s rfl
      obtain ⟨s₀, ss, rfl⟩ := List.exists_cons_of_ne_nil hs0
      simp only [Option.getD_some, List.nil_append, List.cons_append]
      have hsplit := takeWhile_dropWhile_append Char.isDigit flow (s₀ :: (ss ++ '.' :: ext))
        hflowd
        (fun d hd => by
          have : s₀ = d := by simpa using hd
          rw [← this]
          exact hshead s₀ rfl)
      have hs₀ : ¬ s₀ = '_' := fun h => hus (h ▸ List.mem_cons_self s₀ ss)
      have halt' := parseSubExt_alt (s₀ :: ss) ext hs0 hdot halt hext
      rw [List.cons_append] at halt'
      simp [parseFlowTail, hsplit.1, hsplit.2, hne, hs₀, halt']
  · cases sub with
    | none =>
      simp only [Option.getD_none, List.nil_append, List.singleton_append, List.append_nil]
      have hsplit := takeWhile_dropWhile_append Char.isDigit flow ('_' :: ('.' :: ext)) hflowd
        (fun d hd => by
          have : '_' = d := by simpa using hd
          rw [← this]
          decide)
      have h1 : ([] : List Char) ++ '.' :: ext = '.' :: ext := rfl
      simp [parseFlowTail, hsplit.1, hsplit.2, hne, parseSubExt_noSub ext hext]
    | some s =>
      obtain ⟨hs0, halt, hus, hdot, hshead⟩ := hsub s rfl
      simp only [Option.getD_some, List.singleton_append]
      have hsplit := takeWhile_dropWhile_append Char.isDigit flow ('_' :: (s ++ '.' :: ext))
        hflowd
        (fun d hd => by
          have : '_' = d := by simpa using hd
          rw [← this]
          decide)
      have halt' := parseSubExt_alt s ext hs0 hdot halt hext
      simp [parseFlowTail, hsplit.1, hsplit.2, hne, halt']

theorem parseFxPart_tail_none (flow u ext : List Char) (sub : Option (List Char))
    (hflowd : ∀ c ∈ flow, c.isDigit = true)
    (hu : u = [] ∨ u = ['_']) (hext : extOK ext = true)
    (hsub : ∀ s, sub = some s → s ≠ [] ∧ isSubfileAlt s = true ∧ '_' ∉ s ∧ '.' ∉ s ∧
      (∀ d, s.head? = some d → d.isDigit = false)) :
    parseFxPart (flow ++ u ++ sub.getD [] ++ '.' :: ext) = none := by
  obtain ⟨hextus, -⟩ := extOK_no_underscore_dot ext hext
  have hsubus : '_' ∉ sub.getD [] := by
    cases sub with
    | none => simp
    | some s => simpa using (hsub s rfl).2.2.1
  have hhead : ∀ d, ((sub.getD []) ++ '.' :: ext).head? = some d → d.isDigit = false := by
    intro d hd
    cases sub with
    | none =>
      have : '.' = d := by simpa using hd
      rw [← this]
      decide
    | some s =>
      obtain ⟨hs0, -, -, -, hshead⟩ := hsub s rfl
      obtain ⟨s₀, ss, rfl⟩ := List.exists_cons_of_ne_nil hs0
      have : s₀ = d := by simpa using hd
      rw [← this]
      exact hshead s₀ rfl
  apply pickLongest_none
  intro a b hab
  rw [List.nil_append]
  by_cases hn : '\n' ∈ a
  · simp [fxCheck, hn]
  · cases b with
    | nil => simp [fxCheck, hn]
    | cons c b' =>
      by_cases hc : c = '_'
      · subst hc
        obtain ⟨-, -, hb⟩ :=
          underscore_split u (sub.getD []) ext hu hsubus hextus flow hflowd a b' hab
        have hnone : parseFlowTail b' = none := by
          rw [hb]
          exact parseFlowTail_nondigit _ hhead
        simp [fxCheck, hn, hnone]
      · simp [fxCheck, hn, hc]

theorem parseFxPart_eval (fx flow u ext : List Char) (sub : Option (List Char))
    (hfx_nl : '\n' ∉ fx) (hfx_us : '_' ∉ fx)
    (hflow0 : flow ≠ []) (hflowd : ∀ c ∈ flow, c.isDigit = true)
    (hu : u = [] ∨ u = ['_']) (hext : extOK ext = true)
    (hsub : ∀ s, sub = some s → s ≠ [] ∧ isSubfileAlt s = true ∧ '_' ∉ s ∧ '.' ∉ s ∧
      (∀ d, s.head? = some d → d.isDigit = false)) :
    parseFxPart (fx ++ '_' :: (flow ++ u ++ sub.getD [] ++ '.' :: ext)) =
      some (fx, flow, sub, ext) := by
  obtain ⟨hextus, -⟩ := extOK_no_underscore_dot ext hext
  have hsubus : '_' ∉ sub.getD [] := by
    cases sub with
    | none => simp
    | some s => simpa using (hsub s rfl).2.2.1
  have hhead : ∀ d, ((sub.getD []) ++ '.' :: ext).head? = some d → d.isDigit = false := by
    intro d hd
    cases sub with
    | none =>
      have : '.' = d := by simpa using hd
      rw [← this]
      decide
    | some s =>
      obtain ⟨hs0, -, -, -, hshead⟩ := hsub s rfl
      obtain ⟨s₀, ss, rfl⟩ := List.exists_cons_of_ne_nil hs0
      have : s₀ = d := by simpa using hd
      rw [← this]
      exact hshead s₀ rfl
  apply pickLongest_some fxCheck _ [] fx ('_' :: (flow ++ u ++ sub.getD [] ++ '.' :: ext)) _
    rfl
  · rw [List.nil_append]
    have hfloweval := parseFlowTail_eval flow u ext sub hflow0 hflowd hu hext hsub
    simp only [List.append_assoc] at hfloweval
    simp [fxCheck, hfx_nl, hfloweval]
  · intro a b hab hlen
    rw [List.nil_append]
    by_cases hn : '\n' ∈ a
    · simp [fxCheck, hn]
    · cases b with
      | nil => simp [fxCheck, hn]
      | cons c b' =>
        by_cases hc : c = '_'
        · subst hc
          rcases fx_underscore_split flow u (sub.getD []) ext hflowd hu hsubus hextus fx
              hfx_us a b' hab with ⟨ha, -⟩ | ⟨-, -, hb⟩
          · rw [ha] at hlen
            exact absurd hlen (lt_irrefl _)
          · have hnone : parseFlowTail b' = none := by
              rw [hb]
              exact parseFlowTail_nondigit _ hhead
            simp [fxCheck, hn, hnone]
        · simp [fxCheck, hn, hc]

theorem parseNamePart_eval (nm fx flow u ext : List Char) (sub : Option (List Char))
    (hnm_nl : '\n' ∉ nm) (hnm_us : '_' ∉ nm)
    (hfx_nl : '\n' ∉ fx) (hfx_us : '_' ∉ fx)
    (hflow0 : flow ≠ []) (hflowd : ∀ c ∈ flow, c.isDigit = true)
    (hu : u = [] ∨ u = ['_']) (hext : extOK ext = true)
    (hsub : ∀ s, sub = some s → s ≠ [] ∧ isSubfileAlt s = true ∧ '_' ∉ s ∧ '.' ∉ s ∧
      (∀ d, s.head? = some d → d.isDigit = false)) :
    parseNamePart (nm ++ '_' :: '_' :: (fx ++ '_' :: (flow ++ u ++ sub.getD [] ++ '.' :: ext))) =
      some (nm, fx, flow, sub, ext) := by
  obtain ⟨hextus, -⟩ := extOK_no_underscore_dot ext hext
  have hsubus : '_' ∉ sub.getD [] := by
    cases sub with
    | none => simp
    | some s => simpa using (hsub s rfl).2.2.1
  apply pickLongest_some nameCheck _ [] nm
    ('_' :: '_' :: (fx ++ '_' :: (flow ++ u ++ sub.getD [] ++ '.' :: ext))) _ rfl
  · rw [List.nil_append]
    have hfxeval := parseFxPart_eval fx flow u ext sub hfx_nl hfx_us hflow0 hflowd hu hext hsub
    simp only [List.append_assoc] at hfxeval
    simp [nameCheck, hnm_nl, hfxeval]
  · intro a b hab hlen
    rw [List.nil_append]
    by_cases hn : '\n' ∈ a
    · simp [nameCheck, hn]
    · cases b with
      | nil => simp [nameCheck, hn]
      | cons c₁ b₁ =>
        cases b₁ with
        | nil => simp [nameCheck, hn]
        | cons c₂ r =>
          by_cases h12 : c₁ = '_' ∧ c₂ = '_'
          · obtain ⟨rfl, rfl⟩ := h12
            rcases name_double_underscore_split fx flow u (sub.getD []) ext hfx_us hflow0
                hflowd hu hsubus hextus nm hnm_us a r hab with ⟨ha, -⟩ | ⟨-, -, ht⟩
            · rw [ha] at hlen
              exact absurd hlen (lt_irrefl _)
            · have hnone : parseFxPart r = none := by
                rw [ht]
                exact parseFxPart_tail_none flow u ext sub hflowd hu hext hsub
              simp [nameCheck, hn, hnone]
          · simp [nameCheck, hn, h12]

theorem parseTestcaseFilenameL_template (num nm fx flow u ext : List Char)
    (sub : Option (List Char))
    (hnum0 : num ≠ []) (hnumd : ∀ c ∈ num, c.isDigit = true)
    (hnm_nl : '\n' ∉ nm) (hnm_us : '_' ∉ nm)
    (hfx_nl : '\n' ∉ fx) (hfx_us : '_' ∉ fx)
    (hflow0 : flow ≠ []) (hflowd : ∀ c ∈ flow, c.isDigit = true)
    (hu : u = [] ∨ u = ['_']) (hext : extOK ext = true)
    (hsub : ∀ s, sub = some s → s ≠ [] ∧ isSubfileAlt s = true ∧ '_' ∉ s ∧ '.' ∉ s ∧
      (∀ d, s.head? = some d → d.isDigit = false)) :
    parseTestcaseFilenameL
      ('c' :: 'w' :: 'e' ::
        (num ++ '_' :: (nm ++ '_' :: '_' ::
          (fx ++ '_' :: (flow ++ u ++ sub.getD [] ++ '.' :: ext))))) =
      some ⟨num, nm, fx, flow, sub, ext⟩ := by
  have hnumne : num.isEmpty = false := by
    cases num with
    | nil => exact absurd rfl hnum0
    | cons _ _ => rfl
  have hsplit := takeWhile_dropWhile_append Char.isDigit num
    ('_' :: (nm ++ '_' :: '_' :: (fx ++ '_' :: (flow ++ u ++ sub.getD [] ++ '.' :: ext))))
    hnumd
    (fun d hd => by
      have : '_' = d := by simpa using hd
      rw [← this]
      decide)
  have hname := parseNamePart_eval nm fx flow u ext sub hnm_nl hnm_us hfx_nl hfx_us hflow0
    hflowd hu hext hsub
  simp only [List.append_assoc] at hsplit hname
  simp [parseTestcaseFilenameL, hsplit.1, hsplit.2, hnumne, hname]


/-- C4 (amended): a filename assembled from the grammar's own template
(`cwe` + digits + `_` + name + `__` + variant + `_` + digits +
optional `_` + optional subfile marker + `.` + extension) is parsed by
`break_up_filename` back into exactly the original six component
values, provided the weakness-name and functional-variant components
contain no underscore and no newline (an underscore inside them can be
re-split by the greedy engine — see the counterexample), the id
components are nonempty digit strings, the optional subfile marker is
one of the grammar's alternatives (letters and digits only, never
starting with a digit), and the extension is one of the grammar's
alternatives. -/
theorem claim_C4 (num nm fx flow u ext : List Char) (sub : Option (List Char))
    (hnum0 : num ≠ []) (hnumd : ∀ c ∈ num, c.isDigit = true)
    (hnm_nl : '\n' ∉ nm) (hnm_us : '_' ∉ nm)
    (hfx_nl : '\n' ∉ fx) (hfx_us : '_' ∉ fx)
    (hflow0 : flow ≠ []) (hflowd : ∀ c ∈ flow, c.isDigit = true)
    (hu : u = [] ∨ u = ['_']) (hext : extOK ext = true)
    (hsub : ∀ s, sub = some s → s ≠ [] ∧ isSubfileAlt s = true ∧ '_' ∉ s ∧ '.' ∉ s ∧
      (∀ d, s.head? = some d → d.isDigit = false)) :
    break_up_filename (String.mk ('c' :: 'w' :: 'e' ::
        (num ++ '_' :: (nm ++ '_' :: '_' ::
          (fx ++ '_' :: (flow ++ u ++ sub.getD [] ++ '.' :: ext)))))) =
      (⟨String.mk num, String.mk nm, String.mk fx, String.mk flow,
        sub.map String.mk, String.mk ext⟩, []) := by
  have h := parseTestcaseFilenameL_template num nm fx flow u ext sub hnum0 hnumd hnm_nl
    hnm_us hfx_nl hfx_us hflow0 hflowd hu hext hsub
  simp only [List.append_assoc] at h
  simp [break_up_filename, h]

/-- C4 (counterexample): assembling the template from the components
`cwe_number = 1`, `cwe_name = n`, `functional_variant = a__b`,
`flow_variant = 01`, `subfile = a`, `extension = c` and parsing it back
does not recover the components: the greedy `cwe_name` group absorbs
`n__a` and the functional variant comes back as `b`. -/
theorem claim_C4_counterexample :
    (break_up_filename
        ("cwe" ++ "1" ++ "_" ++ "n" ++ "__" ++ "a__b" ++ "_" ++ "01" ++ "a" ++ "." ++ "c")).1 =
      ⟨"1", "n__a", "b", "01", some "a", "c"⟩ ∧
    ("b" : String) ≠ "a__b" ∧ ("n__a" : String) ≠ "n" := by
  refine ⟨by decide, by decide, by decide⟩

/-- Closed instance of `claim_C4` at the components `1`, `name`,
`fxvar`, `01`, marker `bad` (attached without the optional underscore)
and extension `c`. -/
theorem claim_C4_witness :
    break_up_filename (String.mk ('c' :: 'w' :: 'e' ::
        ("1".data ++ '_' :: ("name".data ++ '_' :: '_' ::
          ("fxvar".data ++ '_' ::
            ("01".data ++ [] ++ (some "bad".data).getD [] ++ '.' :: "c".data)))))) =
      (⟨"1", "name", "fxvar", "01", some "bad", "c"⟩, []) := by
  have h := claim_C4 "1".data "name".data "fxvar".data "01".data [] "c".data
    (some "bad".data)
    (by decide) (by decide) (by decide) (by decide) (by decide) (by decide)
    (by decide) (by decide) (Or.inl rfl) (by decide)
    (by
      intro s hs
      obtain rfl : "bad".data = s := by injection hs
      refine ⟨by decide, by decide, by decide, by decide, ?_⟩
      intro d hd
      have : 'b' = d := by simpa using hd
      rw [← this]
      decide)
  exact h


end PyCommon
